import Mathlib

/-!
Shallow embedding of `pl_mysql_to_supa.py` (MySQL → Supabase batch loader).

Python strings are modelled as `List Char` over the ASCII fragment the code
manipulates; database effects are modelled as explicit statement traces.
Each definition mirrors one Python function of the source file:
`normalize_ident`, `dedupe_idents`, `map_mysql_to_pg`, the primary-key
handling of `ensure_schema_and_table`, `maybe_truncate`, the `LOAD_MODE`
resolution of `main`, and the fetch/insert loop of `load_data`.
-/

namespace PlMysqlToSupa

/-- ASCII model of Python `str.lower` on one character. -/
def pyLowerChar (c : Char) : Char :=
  if 65 ≤ c.toNat ∧ c.toNat ≤ 90 then Char.ofNat (c.toNat + 32) else c

/-- Python `str.lower`, character-wise. -/
def pyLower (s : List Char) : List Char := s.map pyLowerChar

/-- The whitespace characters stripped by Python `str.strip()` (ASCII). -/
def isPySpace (c : Char) : Bool :=
  c.toNat == 32 || c.toNat == 9 || c.toNat == 10 || c.toNat == 13 ||
    c.toNat == 11 || c.toNat == 12

/-- Drop the longest trailing run of characters satisfying `p`. -/
def dropTrail (p : Char → Bool) : List Char → List Char
  | [] => []
  | c :: cs =>
    match dropTrail p cs with
    | [] => if p c then [] else [c]
    | d :: ds => c :: d :: ds

/-- Python `str.strip(chars)`: drop leading and trailing characters
satisfying `p`. -/
def pyStripBy (p : Char → Bool) (s : List Char) : List Char :=
  dropTrail p (s.dropWhile p)

/-- The character class `[a-z0-9_]` used by the regexes of
`normalize_ident`. -/
def isIdentChar (c : Char) : Bool :=
  (97 ≤ c.toNat && c.toNat ≤ 122) || (48 ≤ c.toNat && c.toNat ≤ 57) || c == '_'

/-- ASCII `[0-9]`; model of Python `str.isdigit` on the relevant alphabet. -/
def isDigitChar (c : Char) : Bool := 48 ≤ c.toNat && c.toNat ≤ 57

/-- `re.sub` of a maximal-run pattern by the single character `'_'`:
each maximal run of characters satisfying `p` becomes one underscore.
`prev` records whether the previous character belonged to a run. -/
def subRuns (p : Char → Bool) (prev : Bool) : List Char → List Char
  | [] => []
  | c :: cs =>
    if p c then
      (if prev then subRuns p true cs else '_' :: subRuns p true cs)
    else c :: subRuns p false cs

/-- `s[0].isdigit()` guarded against the empty string. -/
def headIsDigit : List Char → Bool
  | [] => false
  | c :: _ => isDigitChar c

/-- Stages of `normalize_ident` up to `strip("_")`:
`s = str(name).strip().lower()`, then
`s = re.sub(r"[^a-z0-9_]+", "_", s)`, then
`s = re.sub(r"_+", "_", s).strip("_")`. -/
def normalize_core (name : List Char) : List Char :=
  pyStripBy (fun c => c == '_')
    (subRuns (fun c => c == '_') false
      (subRuns (fun c => !(isIdentChar c)) false
        (pyLower (pyStripBy isPySpace name))))

/-- `if not s: s = "col"` from `normalize_ident`. -/
def normalize_pad (s : List Char) : List Char :=
  if s.isEmpty then 'c' :: 'o' :: 'l' :: [] else s

/-- `normalize_ident` from the source: strip, lowercase, replace runs of
characters outside `[a-z0-9_]` by `'_'`, collapse runs of underscores,
strip underscores, default to `"col"`, and prefix `"c_"` when the result
starts with a digit. -/
def normalize_ident (name : List Char) : List Char :=
  if headIsDigit (normalize_pad (normalize_core name)) then
    'c' :: '_' :: normalize_pad (normalize_core name)
  else normalize_pad (normalize_core name)

/-- Decimal digits of `n`, most significant first: model of Python
`str(int)` for nonnegative numbers.  `fuel` bounds the division loop;
`n + 1` always suffices. -/
def natDigitsGo : Nat → Nat → List Char → List Char
  | 0, _, acc => acc
  | fuel + 1, n, acc =>
    if n < 10 then Nat.digitChar n :: acc
    else natDigitsGo fuel (n / 10) (Nat.digitChar (n % 10) :: acc)

/-- Decimal rendering of a natural number. -/
def natDigits (n : Nat) : List Char := natDigitsGo (n + 1) n []

/-- Pointwise update of the `seen` table of `dedupe_idents`
(a Python dict mapping identifier to count; absent is modelled as 0). -/
def bumpSeen (seen : List Char → Nat) (x : List Char) (v : Nat) :
    List Char → Nat :=
  fun y => if y = x then v else seen y

/-- The loop of `dedupe_idents`: `seen x = 0` models `x not in seen`;
a duplicate `x` is emitted as `x_<seen[x]>` after `seen[x] += 1`. -/
def dedupe_go (seen : List Char → Nat) : List (List Char) → List (List Char)
  | [] => []
  | x :: xs =>
    if seen x = 0 then x :: dedupe_go (bumpSeen seen x 1) xs
    else (x ++ '_' :: natDigits (seen x + 1)) :: dedupe_go (bumpSeen seen x (seen x + 1)) xs

/-- `dedupe_idents` from the source. -/
def dedupe_idents (idents : List (List Char)) : List (List Char) :=
  dedupe_go (fun _ => 0) idents

/-- Specification-side renaming: the first occurrence of a name is kept,
and the `k`-th occurrence (`k ≥ 2`) gets the suffix `_k`; the accumulator
`pre` is the list of names already processed. -/
def rename_spec (pre : List (List Char)) : List (List Char) → List (List Char)
  | [] => []
  | x :: xs =>
    (if pre.count x = 0 then x else x ++ '_' :: natDigits (pre.count x + 1)) ::
      rename_spec (pre ++ [x]) xs

theorem bumpSeen_count (pre : List (List Char)) (x : List Char) :
    bumpSeen (fun y => pre.count y) x (pre.count x + 1) =
      fun y => (pre ++ [x]).count y := by
  funext y
  simp only [bumpSeen, List.count_append]
  by_cases h : y = x
  · subst h; simp
  · simp [List.count_cons, h]

theorem dedupe_go_count (xs : List (List Char)) :
    ∀ pre : List (List Char),
      dedupe_go (fun y => pre.count y) xs = rename_spec pre xs := by
  induction xs with
  | nil => intro pre; rfl
  | cons x xs ih =>
    intro pre
    simp only [dedupe_go, rename_spec]
    by_cases h : pre.count x = 0
    · rw [if_pos h, if_pos h]
      have hb := bumpSeen_count pre x
      rw [h] at hb
      rw [hb, ih]
    · rw [if_neg h, if_neg h, bumpSeen_count, ih]

/-- C1 (counterexample): the spec's example is wrong on the code — the two
raw column names `"Name"` and `"name "` both normalize to `"name"`, but
`dedupe_idents` renames the second occurrence to `"name_2"`, not
`"name_1"` (the count suffix is the post-increment value of `seen[x]`). -/
theorem c1_dedupe_counterexample :
    ¬ (dedupe_idents [normalize_ident ( "Name".data), normalize_ident ( "name ".data)] =
        [ "name".data, "name_1".data]) := by decide

/-- C1 (amended): `dedupe_idents` keeps the first occurrence of each name
unchanged and renames the `k`-th occurrence (`k ≥ 2`) of a name to
`name_k`, i.e. the suffix is the count of occurrences so far including the
current one (2-indexed); in particular the normalizations of `"Name"` and
`"name "` deduplicate to `["name", "name_2"]`. -/
theorem c1_dedupe_amended :
    (∀ idents, dedupe_idents idents = rename_spec [] idents) ∧
      dedupe_idents [normalize_ident ( "Name".data), normalize_ident ( "name ".data)] =
        [ "name".data, "name_2".data] := by
  constructor
  · intro idents
    have h : (fun _ : List Char => 0) = fun y => ([] : List (List Char)).count y := by
      funext y; simp
    unfold dedupe_idents
    rw [h, dedupe_go_count]
  · decide

/-- C2 (failing input): normalization followed by deduplication does NOT
always yield pairwise-distinct identifiers.  The three distinct raw column
names `"x!"`, `"x 2"`, `"x"` normalize to `["x", "x_2", "x"]`, and
`dedupe_idents` renames the duplicate `"x"` to `"x_2"`, colliding with the
already-present `"x_2"`. -/
theorem c2_unique_failing :
    dedupe_idents (List.map normalize_ident [ "x!".data, "x 2".data, "x".data]) =
        [ "x".data, "x_2".data, "x_2".data] ∧
      ¬ (dedupe_idents (List.map normalize_ident
          [ "x!".data, "x 2".data, "x".data])).Nodup := by
  exact ⟨by decide, by decide⟩

/-! Normal form of `normalize_ident` outputs, used for the regex invariant
and idempotence. -/

/-- The head of `s` (if any) does not satisfy `p`. -/
def headNotP (p : Char → Bool) : List Char → Bool
  | [] => true
  | c :: _ => !(p c)

/-- The last element of `s` (if any) does not satisfy `p`. -/
def lastNotP (p : Char → Bool) : List Char → Bool
  | [] => true
  | c :: cs =>
    match cs with
    | [] => !(p c)
    | _ :: _ => lastNotP p cs

/-- No two adjacent underscores. -/
def noUU : List Char → Bool
  | [] => true
  | c :: cs => (!(c == '_') || headNotP (fun d => d == '_') cs) && noUU cs

/-- ASCII `[a-z]`. -/
def isLowerAlpha (c : Char) : Bool := 97 ≤ c.toNat && c.toNat ≤ 122

def headLowerAlpha : List Char → Bool
  | [] => false
  | c :: _ => isLowerAlpha c

/-- Normal form of `normalize_ident` outputs: nonempty, starts with a
lowercase letter, all characters in `[a-z0-9_]`, no doubled underscore,
and no trailing underscore. -/
def identNF (s : List Char) : Bool :=
  headLowerAlpha s && s.all isIdentChar && noUU s && lastNotP (fun c => c == '_') s

/-- The spec's regex `[a-z_][a-z0-9_]*`. -/
def matchesIdentRegex : List Char → Bool
  | [] => false
  | c :: cs => (isLowerAlpha c || c == '_') && cs.all isIdentChar

theorem identChar_cases {c : Char} (h : isIdentChar c = true) :
    (97 ≤ c.toNat ∧ c.toNat ≤ 122) ∨ (48 ≤ c.toNat ∧ c.toNat ≤ 57) ∨ c = '_' := by
  simp only [isIdentChar, Bool.or_eq_true, Bool.and_eq_true, decide_eq_true_eq,
    beq_iff_eq] at h
  tauto

theorem ident_not_space {c : Char} (h : isIdentChar c = true) : isPySpace c = false := by
  rcases identChar_cases h with hb | hb | hb
  · simp only [isPySpace, Bool.or_eq_false_iff, beq_eq_false_iff_ne, ne_eq]; omega
  · simp only [isPySpace, Bool.or_eq_false_iff, beq_eq_false_iff_ne, ne_eq]; omega
  · subst hb; decide

theorem ident_lower_fix {c : Char} (h : isIdentChar c = true) : pyLowerChar c = c := by
  rcases identChar_cases h with hb | hb | hb
  · rw [pyLowerChar, if_neg]; omega
  · rw [pyLowerChar, if_neg]; omega
  · subst hb; decide

theorem lower_of_ident {c : Char} (h : isIdentChar c = true) (hu : (c == '_') = false)
    (hd : isDigitChar c = false) : isLowerAlpha c = true := by
  rcases identChar_cases h with hb | hb | hb
  · simp only [isLowerAlpha, Bool.and_eq_true, decide_eq_true_eq]; omega
  · exfalso
    have : isDigitChar c = true := by
      simp only [isDigitChar, Bool.and_eq_true, decide_eq_true_eq]; omega
    rw [this] at hd; simp at hd
  · subst hb; simp at hu

theorem lower_not_underscore {c : Char} (h : isLowerAlpha c = true) :
    (c == '_') = false := by
  cases hc : c == '_' with
  | false => rfl
  | true =>
    have : c = '_' := by simpa using hc
    subst this
    simp [isLowerAlpha] at h

theorem lower_not_digit {c : Char} (h : isLowerAlpha c = true) :
    isDigitChar c = false := by
  simp only [isLowerAlpha, Bool.and_eq_true, decide_eq_true_eq] at h
  simp only [isDigitChar, Bool.and_eq_false_iff, decide_eq_false_iff_not, not_le]
  omega

theorem headNotP_cons (p : Char → Bool) (c : Char) (cs : List Char) :
    headNotP p (c :: cs) = !(p c) := rfl

theorem headLowerAlpha_cons (c : Char) (cs : List Char) :
    headLowerAlpha (c :: cs) = isLowerAlpha c := rfl

theorem headIsDigit_cons (c : Char) (cs : List Char) :
    headIsDigit (c :: cs) = isDigitChar c := rfl

theorem noUU_cons (c : Char) (cs : List Char) :
    noUU (c :: cs) =
      ((!(c == '_') || headNotP (fun d => d == '_') cs) && noUU cs) := rfl

theorem lastNotP_single (p : Char → Bool) (c : Char) :
    lastNotP p (c :: ([] : List Char)) = !(p c) := rfl

theorem lastNotP_cons2 (p : Char → Bool) (c d : Char) (ds : List Char) :
    lastNotP p (c :: d :: ds) = lastNotP p (d :: ds) := rfl

theorem identNF_def (s : List Char) :
    identNF s = (headLowerAlpha s && s.all isIdentChar && noUU s &&
      lastNotP (fun c => c == '_') s) := rfl

theorem map_eq_self_of_fix {f : Char → Char} :
    ∀ l : List Char, (∀ c ∈ l, f c = c) → l.map f = l := by
  intro l h
  induction l with
  | nil => rfl
  | cons c cs ih =>
    simp only [List.map_cons]
    rw [h c (List.mem_cons_self c cs), ih (fun d hd => h d (List.mem_cons_of_mem c hd))]

theorem subRuns_all {p q : Char → Bool} (hq : q '_' = true) :
    ∀ (b : Bool) (l : List Char), (∀ c ∈ l, p c = false → q c = true) →
      (subRuns p b l).all q = true := by
  intro b l
  induction l generalizing b with
  | nil => intro _; rfl
  | cons c cs ih =>
    intro h
    have hcs : ∀ d ∈ cs, p d = false → q d = true :=
      fun d hd => h d (List.mem_cons_of_mem c hd)
    cases hpc : p c with
    | true =>
      cases b with
      | true => simpa [subRuns, hpc] using ih true hcs
      | false => simp [subRuns, hpc, List.all_cons, hq, ih true hcs]
    | false =>
      simp [subRuns, hpc, List.all_cons, h c (List.mem_cons_self c cs) hpc, ih false hcs]

theorem subRuns_collapse_noUU :
    ∀ (b : Bool) (l : List Char),
      noUU (subRuns (fun c => c == '_') b l) = true ∧
        (b = true →
          headNotP (fun c => c == '_') (subRuns (fun c => c == '_') b l) = true) := by
  intro b l
  induction l generalizing b with
  | nil => exact ⟨rfl, fun _ => rfl⟩
  | cons c cs ih =>
    cases hpc : (c == '_') with
    | true =>
      cases b with
      | true =>
        constructor
        · simpa [subRuns, hpc] using (ih true).1
        · intro _
          simpa [subRuns, hpc] using (ih true).2 rfl
      | false =>
        have h1 := (ih true).1
        have h2 := (ih true).2 rfl
        constructor
        · simp [subRuns, hpc, noUU_cons, h1, h2]
        · intro hcontra; exact absurd hcontra (by decide)
    | false =>
      constructor
      · simp [subRuns, hpc, noUU_cons, headNotP_cons, (ih false).1]
      · intro _
        simp [subRuns, hpc, headNotP_cons]

theorem all_dropWhile {q : Char → Bool} (p : Char → Bool) :
    ∀ l : List Char, l.all q = true → (l.dropWhile p).all q = true := by
  intro l h
  induction l with
  | nil => exact h
  | cons c cs ih =>
    rw [List.all_cons, Bool.and_eq_true] at h
    cases hpc : p c with
    | true => simp only [List.dropWhile_cons, hpc, if_true]; exact ih h.2
    | false => simp [List.dropWhile_cons, hpc, List.all_cons, h.1, h.2]

theorem headNotP_dropWhile (p : Char → Bool) :
    ∀ l : List Char, headNotP p (l.dropWhile p) = true := by
  intro l
  induction l with
  | nil => rfl
  | cons c cs ih =>
    cases hpc : p c with
    | true => simpa [List.dropWhile_cons, hpc] using ih
    | false => simp [List.dropWhile_cons, hpc, headNotP_cons]

theorem noUU_tail {c : Char} {cs : List Char} (h : noUU (c :: cs) = true) :
    noUU cs = true := by
  rw [noUU_cons, Bool.and_eq_true] at h
  exact h.2

theorem noUU_dropWhile (p : Char → Bool) :
    ∀ l : List Char, noUU l = true → noUU (l.dropWhile p) = true := by
  intro l h
  induction l with
  | nil => exact h
  | cons c cs ih =>
    cases hpc : p c with
    | true => simp only [List.dropWhile_cons, hpc, if_true]; exact ih (noUU_tail h)
    | false => simpa [List.dropWhile_cons, hpc] using h

theorem all_dropTrail {q : Char → Bool} (p : Char → Bool) :
    ∀ l : List Char, l.all q = true → (dropTrail p l).all q = true := by
  intro l h
  induction l with
  | nil => exact h
  | cons c cs ih =>
    rw [List.all_cons, Bool.and_eq_true] at h
    simp only [dropTrail]
    cases hdt : dropTrail p cs with
    | nil =>
      cases hpc : p c with
      | true => simp [hpc]
      | false => simp [hpc, List.all_cons, h.1]
    | cons d ds =>
      have hall := ih h.2
      rw [hdt] at hall
      show (c :: d :: ds).all q = true
      rw [List.all_cons, Bool.and_eq_true]
      exact ⟨h.1, hall⟩

theorem headNotP_dropTrail {r : Char → Bool} (p : Char → Bool) :
    ∀ l : List Char, headNotP r l = true → headNotP r (dropTrail p l) = true := by
  intro l h
  cases l with
  | nil => exact h
  | cons c cs =>
    simp only [dropTrail]
    cases hdt : dropTrail p cs with
    | nil =>
      cases hpc : p c with
      | true => simp [hpc, headNotP]
      | false => simp only [hpc, if_false]; simpa [headNotP_cons] using h
    | cons d ds => simpa [headNotP_cons] using h

theorem noUU_dropTrail :
    ∀ l : List Char, noUU l = true →
      noUU (dropTrail (fun c => c == '_') l) = true := by
  intro l h
  induction l with
  | nil => exact h
  | cons c cs ih =>
    rw [noUU_cons, Bool.and_eq_true] at h
    simp only [dropTrail]
    cases hdt : dropTrail (fun c => c == '_') cs with
    | nil =>
      show noUU (if (c == '_') = true then [] else [c]) = true
      by_cases hpc : c = '_'
      · subst hpc; decide
      · have hpc' : (c == '_') = false := by simpa using hpc
        simp [hpc', noUU, headNotP]
    | cons d ds =>
      have hcs := ih h.2
      rw [hdt] at hcs
      rw [noUU_cons, Bool.and_eq_true]
      constructor
      · cases hpc : (c == '_') with
        | false => simp
        | true =>
          have h1 := h.1
          rw [hpc] at h1
          simp only [Bool.not_true, Bool.false_or] at h1
          have h2 := headNotP_dropTrail (fun c => c == '_') cs h1
          rw [hdt] at h2
          simp [h2]
      · exact hcs

theorem lastNotP_dropTrail (p : Char → Bool) :
    ∀ l : List Char, lastNotP p (dropTrail p l) = true := by
  intro l
  induction l with
  | nil => rfl
  | cons c cs ih =>
    simp only [dropTrail]
    cases hdt : dropTrail p cs with
    | nil =>
      cases hpc : p c with
      | true => simp [hpc, lastNotP]
      | false => simp [hpc, lastNotP_single]
    | cons d ds =>
      rw [hdt] at ih
      rw [lastNotP_cons2]
      exact ih

theorem dropTrail_eq_self_of_all (p : Char → Bool) :
    ∀ l : List Char, (∀ c ∈ l, p c = false) → dropTrail p l = l := by
  intro l h
  induction l with
  | nil => rfl
  | cons c cs ih =>
    have hcs := ih (fun d hd => h d (List.mem_cons_of_mem c hd))
    simp only [dropTrail, hcs]
    cases cs with
    | nil => simp [h c (List.mem_cons_self c [])]
    | cons d ds => rfl

theorem dropTrail_eq_self_of_lastNot (p : Char → Bool) :
    ∀ l : List Char, lastNotP p l = true → dropTrail p l = l := by
  intro l
  induction l with
  | nil => intro _; rfl
  | cons c cs ih =>
    intro h
    simp only [dropTrail]
    cases cs with
    | nil =>
      have hpc : p c = false := by simpa [lastNotP_single] using h
      simp [dropTrail, hpc]
    | cons d ds =>
      rw [lastNotP_cons2] at h
      rw [ih h]

theorem dropWhile_eq_self_of_headNot (p : Char → Bool) :
    ∀ l : List Char, headNotP p l = true → l.dropWhile p = l := by
  intro l h
  cases l with
  | nil => rfl
  | cons c cs =>
    have hpc : p c = false := by simpa [headNotP_cons] using h
    simp [List.dropWhile_cons, hpc]

theorem subRuns_eq_self_of_all (p : Char → Bool) (b : Bool) :
    ∀ l : List Char, (∀ c ∈ l, p c = false) → subRuns p b l = l := by
  intro l
  induction l generalizing b with
  | nil => intro _; rfl
  | cons c cs ih =>
    intro h
    have hc := h c (List.mem_cons_self c cs)
    simp only [subRuns, hc]
    rw [ih false (fun d hd => h d (List.mem_cons_of_mem c hd))]
    simp

theorem subRuns_underscore_eq_self :
    ∀ l : List Char, noUU l = true →
      subRuns (fun c => c == '_') false l = l ∧
        (headNotP (fun c => c == '_') l = true →
          subRuns (fun c => c == '_') true l = l) := by
  intro l
  induction l with
  | nil => exact fun _ => ⟨rfl, fun _ => rfl⟩
  | cons c cs ih =>
    intro h
    rw [noUU_cons, Bool.and_eq_true] at h
    obtain ⟨h1, h2⟩ := h
    obtain ⟨ihf, iht⟩ := ih h2
    cases hpc : (c == '_') with
    | true =>
      have hc : c = '_' := by simpa using hpc
      rw [hpc] at h1
      simp only [Bool.not_true, Bool.false_or] at h1
      have ht := iht h1
      constructor
      · simp only [subRuns, hpc, if_true]
        rw [ht, hc]
        simp
      · intro hh
        rw [headNotP_cons, hpc] at hh
        simp at hh
    | false =>
      constructor
      · simp only [subRuns, hpc]
        rw [ihf]
        simp
      · intro _
        simp only [subRuns, hpc]
        rw [ihf]
        simp

theorem normalize_core_props (name : List Char) :
    (normalize_core name).all isIdentChar = true ∧
      noUU (normalize_core name) = true ∧
        headNotP (fun c => c == '_') (normalize_core name) = true ∧
          lastNotP (fun c => c == '_') (normalize_core name) = true := by
  have hq : isIdentChar '_' = true := by decide
  unfold normalize_core
  generalize pyLower (pyStripBy isPySpace name) = s0
  have hall1 : (subRuns (fun c => !(isIdentChar c)) false s0).all isIdentChar = true :=
    subRuns_all hq false s0 (fun c _ hc => by simpa using hc)
  generalize hs1 : subRuns (fun c => !(isIdentChar c)) false s0 = s1 at hall1 ⊢
  have hall2 : (subRuns (fun c => c == '_') false s1).all isIdentChar = true :=
    subRuns_all hq false s1 (fun c hc _ => (List.all_eq_true.mp hall1) c hc)
  have hnoUU2 : noUU (subRuns (fun c => c == '_') false s1) = true :=
    (subRuns_collapse_noUU false s1).1
  generalize hs2 : subRuns (fun c => c == '_') false s1 = s2 at hall2 hnoUU2 ⊢
  unfold pyStripBy
  refine ⟨?_, ?_, ?_, ?_⟩
  · exact all_dropTrail _ _ (all_dropWhile _ _ hall2)
  · exact noUU_dropTrail _ (noUU_dropWhile _ _ hnoUU2)
  · exact headNotP_dropTrail _ _ (headNotP_dropWhile _ s2)
  · exact lastNotP_dropTrail _ _

theorem identNF_normalize (name : List Char) :
    identNF (normalize_ident name) = true := by
  obtain ⟨hall, hnoUU, hhead, hlast⟩ := normalize_core_props name
  unfold normalize_ident
  cases hcore : normalize_core name with
  | nil => decide
  | cons c cs =>
    rw [hcore] at hall hnoUU hhead hlast
    have hpad : normalize_pad (c :: cs) = c :: cs := by simp [normalize_pad]
    rw [hpad]
    by_cases hd : headIsDigit (c :: cs) = true
    · rw [if_pos hd]
      have e1 : ('c' == '_') = false := by decide
      have e2 : ('_' == '_') = true := by decide
      have e3 : isLowerAlpha 'c' = true := by decide
      have e4 : isIdentChar 'c' = true := by decide
      have e5 : isIdentChar '_' = true := by decide
      rw [identNF_def]
      simp only [headLowerAlpha_cons, List.all_cons, noUU_cons, headNotP_cons,
        lastNotP_cons2, e1, e2, e3, e4, e5, hall, hnoUU, hhead, hlast]
      decide
    · rw [if_neg hd]
      have hd' : headIsDigit (c :: cs) = false := by
        cases hhd : headIsDigit (c :: cs)
        · rfl
        · exact absurd hhd hd
      have hc_ident : isIdentChar c = true :=
        (List.all_eq_true.mp hall) c (List.mem_cons_self c cs)
      have hcu : (c == '_') = false := by
        have := hhead
        rw [headNotP_cons] at this
        simpa using this
      have hcd : isDigitChar c = false := by
        rw [headIsDigit_cons] at hd'
        exact hd'
      have hla : isLowerAlpha c = true := lower_of_ident hc_ident hcu hcd
      rw [identNF_def]
      simp [headLowerAlpha_cons, hla, hall, hnoUU, hlast]

theorem normalize_fix (r : List Char) (h : identNF r = true) :
    normalize_ident r = r := by
  rw [identNF_def] at h
  simp only [Bool.and_eq_true] at h
  obtain ⟨⟨⟨hhla, hall⟩, hnoUU⟩, hlast⟩ := h
  cases r with
  | nil => simp [headLowerAlpha] at hhla
  | cons c cs =>
    have hallP := List.all_eq_true.mp hall
    have hlc : isLowerAlpha c = true := by simpa [headLowerAlpha_cons] using hhla
    have hcu : (c == '_') = false := lower_not_underscore hlc
    have hnospace : ∀ d ∈ (c :: cs), isPySpace d = false :=
      fun d hd => ident_not_space (hallP d hd)
    have hstrip : pyStripBy isPySpace (c :: cs) = c :: cs := by
      unfold pyStripBy
      rw [dropWhile_eq_self_of_headNot _ _ (by
        rw [headNotP_cons, hnospace c (List.mem_cons_self c cs)]; rfl)]
      exact dropTrail_eq_self_of_all _ _ hnospace
    have hlower : pyLower (c :: cs) = c :: cs :=
      map_eq_self_of_fix _ (fun d hd => ident_lower_fix (hallP d hd))
    have hsub1 : subRuns (fun d => !(isIdentChar d)) false (c :: cs) = c :: cs :=
      subRuns_eq_self_of_all _ _ _ (fun d hd => by rw [hallP d hd]; rfl)
    have hsub2 : subRuns (fun d => d == '_') false (c :: cs) = c :: cs :=
      (subRuns_underscore_eq_self _ hnoUU).1
    have hstrip2 : pyStripBy (fun d => d == '_') (c :: cs) = c :: cs := by
      unfold pyStripBy
      rw [dropWhile_eq_self_of_headNot _ _ (by rw [headNotP_cons, hcu]; rfl)]
      exact dropTrail_eq_self_of_lastNot _ _ hlast
    have hcore : normalize_core (c :: cs) = c :: cs := by
      unfold normalize_core
      rw [hstrip, hlower, hsub1, hsub2, hstrip2]
    have hpad : normalize_pad (c :: cs) = c :: cs := by simp [normalize_pad]
    have hdig : headIsDigit (c :: cs) = false := by
      rw [headIsDigit_cons]
      exact lower_not_digit hlc
    unfold normalize_ident
    rw [hcore, hpad, hdig]
    simp

/-- C7: `normalize_ident` is idempotent — normalizing an already-normalized
identifier returns it unchanged. -/
theorem c7_normalize_ident_idempotent (s : List Char) :
    normalize_ident (normalize_ident s) = normalize_ident s :=
  normalize_fix _ (identNF_normalize s)

/-- C4: for every input string, `normalize_ident` returns a nonempty
lowercase identifier matching `[a-z_][a-z0-9_]*` (in fact its head is
always a lowercase letter), and `normalize_ident "2nd Floor!!"` is
`"c_2nd_floor"`. -/
theorem c4_normalize_ident_regex :
    (∀ name, matchesIdentRegex (normalize_ident name) = true) ∧
      normalize_ident ( "2nd Floor!!".data) = "c_2nd_floor".data := by
  constructor
  · intro name
    have h := identNF_normalize name
    rw [identNF_def] at h
    simp only [Bool.and_eq_true] at h
    obtain ⟨⟨⟨hhla, hall⟩, _⟩, _⟩ := h
    cases hr : normalize_ident name with
    | nil => rw [hr] at hhla; simp [headLowerAlpha] at hhla
    | cons c cs =>
      rw [hr] at hhla hall
      rw [List.all_cons, Bool.and_eq_true] at hall
      simp only [matchesIdentRegex, Bool.and_eq_true, Bool.or_eq_true]
      exact ⟨Or.inl (by simpa [headLowerAlpha_cons] using hhla), hall.2⟩
  · decide

/-! Embedding of `map_mysql_to_pg`. -/

/-- `isPrefixL pat l`: `pat` is a prefix of `l`. -/
def isPrefixL : List Char → List Char → Bool
  | [], _ => true
  | _ :: _, [] => false
  | a :: as, b :: bs => a == b && isPrefixL as bs

/-- Python's substring test `pat in s`. -/
def containsSub (pat : List Char) : List Char → Bool
  | [] => pat.isEmpty
  | c :: cs => isPrefixL pat (c :: cs) || containsSub pat cs

/-- Match `\((\d+),(\d+)\)` at the start of the list, returning the two
digit groups.  As digit runs cannot be followed by a digit after maximal
munch, this is equivalent to the backtracking regex. -/
def matchNumPair (s : List Char) : Option (List Char × List Char) :=
  match s with
  | '(' :: rest =>
    match rest.span isDigitChar with
    | (d1, rest1) =>
      if d1.isEmpty then none
      else
        match rest1 with
        | ',' :: rest2 =>
          match rest2.span isDigitChar with
          | (d2, rest3) =>
            if d2.isEmpty then none
            else
              match rest3 with
              | ')' :: _ => some (d1, d2)
              | _ => none
        | _ => none
  | _ => none

/-- `re.search(r"\((\d+),(\d+)\)", ct)`: leftmost match. -/
def searchNumPair : List Char → Option (List Char × List Char)
  | [] => none
  | c :: cs =>
    match matchNumPair (c :: cs) with
    | some p => some p
    | none => searchNumPair cs

/-- Match `\((\d+)\)` at the start of the list, returning the digit group. -/
def matchNum (s : List Char) : Option (List Char) :=
  match s with
  | '(' :: rest =>
    match rest.span isDigitChar with
    | (d1, rest1) =>
      if d1.isEmpty then none
      else
        match rest1 with
        | ')' :: _ => some d1
        | _ => none
  | _ => none

/-- `re.search(r"\((\d+)\)", ct)`: leftmost match. -/
def searchNum : List Char → Option (List Char)
  | [] => none
  | c :: cs =>
    match matchNum (c :: cs) with
    | some d => some d
    | none => searchNum cs

/-- `map_mysql_to_pg` from the source (both arguments are lowercased
first; the Python `or ""` None-guard is outside a pure string model). -/
def map_mysql_to_pg (data_type column_type : List Char) : List Char :=
  let dt := pyLower data_type
  let ct := pyLower column_type
  if dt = "int".data ∨ dt = "integer".data ∨ dt = "mediumint".data then "integer".data
  else if dt = "bigint".data then "bigint".data
  else if dt = "smallint".data then "smallint".data
  else if dt = "tinyint".data then
    (if containsSub ( "tinyint(1)".data) ct then "boolean".data else "smallint".data)
  else if dt = "decimal".data ∨ dt = "numeric".data then
    (match searchNumPair ct with
     | some (d1, d2) => "numeric(".data ++ d1 ++ [','] ++ d2 ++ [')']
     | none => "numeric".data)
  else if dt = "float".data then "real".data
  else if dt = "double".data then "double precision".data
  else if dt = "varchar".data ∨ dt = "char".data then
    (match searchNum ct with
     | some d => "varchar(".data ++ d ++ [')']
     | none => "text".data)
  else if dt = "text".data ∨ dt = "mediumtext".data ∨ dt = "longtext".data then "text".data
  else if dt = "datetime".data then "timestamp".data
  else if dt = "timestamp".data then "timestamptz".data
  else if dt = "date".data then "date".data
  else if dt = "time".data then "time".data
  else if dt = "json".data then "jsonb".data
  else if dt = "blob".data ∨ dt = "mediumblob".data ∨ dt = "longblob".data ∨
      dt = "binary".data ∨ dt = "varbinary".data then "bytea".data
  else "text".data

/-- The native type codes with a dedicated branch in `map_mysql_to_pg`. -/
def recognized_type_codes : List (List Char) :=
  [ "int".data, "integer".data, "mediumint".data, "bigint".data, "smallint".data,
    "tinyint".data, "decimal".data, "numeric".data, "float".data, "double".data,
    "varchar".data, "char".data, "text".data, "mediumtext".data, "longtext".data,
    "datetime".data, "timestamp".data, "date".data, "time".data, "json".data,
    "blob".data, "mediumblob".data, "longblob".data, "binary".data, "varbinary".data]

/-- C6: `map_mysql_to_pg` is total by construction (it is a function on all
string pairs and raises nothing), and any data type whose lowercasing is
not a recognized native type code falls through every branch to the
unbounded text type. -/
theorem c6_map_mysql_to_pg_fallback (data_type column_type : List Char)
    (h : pyLower data_type ∉ recognized_type_codes) :
    map_mysql_to_pg data_type column_type = "text".data := by
  simp only [recognized_type_codes, List.mem_cons, List.mem_singleton, not_or,
    List.not_mem_nil] at h
  obtain ⟨h1, h2, h3, h4, h5, h6, h7, h8, h9, h10, h11, h12, h13, h14, h15, h16,
    h17, h18, h19, h20, h21, h22, h23, h24, h25, -⟩ := h
  unfold map_mysql_to_pg
  simp only [h1, h2, h3, h4, h5, h6, h7, h8, h9, h10, h11, h12, h13, h14, h15,
    h16, h17, h18, h19, h20, h21, h22, h23, h24, h25, or_self, if_false]

/-- C6 witness: the unrecognized MySQL type `geometry` maps to `text`. -/
theorem c6_map_mysql_to_pg_fallback_witness :
    pyLower ( "geometry".data) ∉ recognized_type_codes ∧
      map_mysql_to_pg ( "geometry".data) ( "".data) = "text".data :=
  ⟨by decide, c6_map_mysql_to_pg_fallback ( "geometry".data) ( "".data) (by decide)⟩

theorem containsSub_cons (pat : List Char) (c : Char) (cs : List Char) :
    containsSub pat (c :: cs) = (isPrefixL pat (c :: cs) || containsSub pat cs) := rfl

theorem isPrefixL_cons (a : Char) (as : List Char) (b : Char) (bs : List Char) :
    isPrefixL (a :: as) (b :: bs) = ((a == b) && isPrefixL as bs) := rfl

theorem digitChar_digit : ∀ k, k < 10 → isDigitChar (Nat.digitChar k) = true := by decide

theorem digitChar_one_iff : ∀ k, k < 10 → (Nat.digitChar k = '1' ↔ k = 1) := by decide

theorem natDigitsGo_digits :
    ∀ (fuel n : Nat) (acc : List Char), (∀ c ∈ acc, isDigitChar c = true) →
      ∀ c ∈ natDigitsGo fuel n acc, isDigitChar c = true := by
  intro fuel
  induction fuel with
  | zero => intro n acc hacc; exact hacc
  | succ fuel ih =>
    intro n acc hacc
    simp only [natDigitsGo]
    by_cases hn : n < 10
    · rw [if_pos hn]
      intro c hc
      rcases List.mem_cons.mp hc with rfl | hc
      · exact digitChar_digit n hn
      · exact hacc c hc
    · rw [if_neg hn]
      refine ih _ _ (fun c hc => ?_)
      rcases List.mem_cons.mp hc with rfl | hc
      · exact digitChar_digit _ (Nat.mod_lt _ (by omega))
      · exact hacc c hc

theorem natDigitsGo_length_ge :
    ∀ (fuel n : Nat) (acc : List Char),
      acc.length ≤ (natDigitsGo fuel n acc).length := by
  intro fuel
  induction fuel with
  | zero => intro n acc; exact Nat.le_refl _
  | succ fuel ih =>
    intro n acc
    simp only [natDigitsGo]
    by_cases hn : n < 10
    · rw [if_pos hn]; simp
    · rw [if_neg hn]
      have := ih (n / 10) (Nat.digitChar (n % 10) :: acc)
      simp only [List.length_cons] at this
      omega

theorem natDigitsGo_length_one :
    ∀ (fuel n : Nat) (acc : List Char), 1 ≤ fuel →
      acc.length + 1 ≤ (natDigitsGo fuel n acc).length := by
  intro fuel n acc hf
  cases fuel with
  | zero => omega
  | succ fuel =>
    simp only [natDigitsGo]
    by_cases hn : n < 10
    · rw [if_pos hn]; simp
    · rw [if_neg hn]
      have := natDigitsGo_length_ge fuel (n / 10) (Nat.digitChar (n % 10) :: acc)
      simp only [List.length_cons] at this
      omega

theorem natDigits_ne_nil (n : Nat) : natDigits n ≠ [] := by
  intro hcontra
  have h := natDigitsGo_length_one (n + 1) n [] (by omega)
  rw [show natDigitsGo (n + 1) n [] = natDigits n from rfl, hcontra] at h
  simp at h

theorem natDigits_digits (n : Nat) : ∀ c ∈ natDigits n, isDigitChar c = true :=
  natDigitsGo_digits (n + 1) n [] (by intro c hc; cases hc)

theorem natDigits_eq_one_iff (n : Nat) : natDigits n = '1' :: [] ↔ n = 1 := by
  constructor
  · intro h
    unfold natDigits at h
    by_cases hn : n < 10
    · rw [show natDigitsGo (n + 1) n [] = Nat.digitChar n :: [] from by
        simp [natDigitsGo, hn]] at h
      exact (digitChar_one_iff n hn).mp (List.head_eq_of_cons_eq h)
    · exfalso
      rw [show natDigitsGo (n + 1) n [] =
          natDigitsGo n (n / 10) (Nat.digitChar (n % 10) :: []) from by
        simp [natDigitsGo, hn]] at h
      have hl := natDigitsGo_length_one n (n / 10) (Nat.digitChar (n % 10) :: []) (by omega)
      rw [h] at hl
      simp at hl
  · intro h; subst h; decide

theorem digit_not_t {c : Char} (h : isDigitChar c = true) : ('t' == c) = false := by
  cases hbc : ('t' == c) with
  | false => rfl
  | true =>
    have hc : 't' = c := by simpa using hbc
    subst hc
    exact absurd h (by decide)

theorem digit_not_rparen {c : Char} (h : isDigitChar c = true) : (')' == c) = false := by
  cases hbc : (')' == c) with
  | false => rfl
  | true =>
    have hc : ')' = c := by simpa using hbc
    subst hc
    exact absurd h (by decide)

theorem containsSub_digits_rparen {D : List Char}
    (hdig : ∀ c ∈ D, isDigitChar c = true) :
    containsSub ( "tinyint(1)".data) (D ++ ')' :: []) = false := by
  induction D with
  | nil => decide
  | cons d ds ih =>
    have hd : isDigitChar d = true := hdig d (List.mem_cons_self d ds)
    have hds := ih (fun c hc => hdig c (List.mem_cons_of_mem d hc))
    rw [List.cons_append, containsSub_cons,
      show ( "tinyint(1)".data) = 't' :: "inyint(1)".data from by decide,
      isPrefixL_cons, digit_not_t hd, hds]
    simp

theorem containsSub_tinyint1 {D : List Char} (hne : D ≠ [])
    (hdig : ∀ c ∈ D, isDigitChar c = true) :
    (containsSub ( "tinyint(1)".data) ( "tinyint(".data ++ D ++ ')' :: []) = true ↔
      D = '1' :: []) := by
  obtain ⟨d, ds, rfl⟩ : ∃ d ds, D = d :: ds := by
    cases D with
    | nil => exact absurd rfl hne
    | cons d ds => exact ⟨d, ds, rfl⟩
  have hd : isDigitChar d = true := hdig d (List.mem_cons_self d ds)
  have hds : ∀ c ∈ ds, isDigitChar c = true :=
    fun c hc => hdig c (List.mem_cons_of_mem d hc)
  have htail := containsSub_digits_rparen hds
  have e1 : ('t' == 'i') = false := by decide
  have e2 : ('t' == 'n') = false := by decide
  have e3 : ('t' == 'y') = false := by decide
  have e4 : ('i' == '(') = false := by decide
  have e5 : ('t' == '(') = false := by decide
  rw [show ( "tinyint(".data) = 't' :: 'i' :: 'n' :: 'y' :: 'i' :: 'n' :: 't' :: '(' :: []
      from by decide]
  rw [show ( "tinyint(1)".data) =
      't' :: 'i' :: 'n' :: 'y' :: 'i' :: 'n' :: 't' :: '(' :: '1' :: ')' :: []
      from by decide] at htail ⊢
  simp only [List.cons_append, List.nil_append, containsSub_cons, isPrefixL_cons,
    beq_self_eq_true, Bool.true_and, e1, e2, e3, e4, e5, Bool.false_and,
    Bool.false_or, Bool.or_false, digit_not_t hd, htail]
  cases ds with
  | nil =>
    rw [show isPrefixL (')' :: []) (([] : List Char) ++ ')' :: []) = true from by decide]
    constructor
    · intro h
      simp only [Bool.and_true, beq_iff_eq] at h
      rw [← h]
    · intro h
      have hd1 : d = '1' := by simpa using h
      subst hd1
      decide
  | cons e es =>
    have he : isDigitChar e = true := hds e (List.mem_cons_self e es)
    rw [List.cons_append]
    rw [show isPrefixL (')' :: []) (e :: (es ++ ')' :: [])) =
        ((')' == e) && isPrefixL [] (es ++ ')' :: [])) from rfl,
      digit_not_rparen he]
    simp

theorem digit_lower_fix {c : Char} (h : isDigitChar c = true) : pyLowerChar c = c := by
  simp only [isDigitChar, Bool.and_eq_true, decide_eq_true_eq] at h
  rw [pyLowerChar, if_neg]
  omega

/-- C5: `map_mysql_to_pg` maps a `tinyint` column to `boolean` exactly when
the full type declares display width 1: for every width `n`, the canonical
full type `tinyint(n)` maps to `boolean` iff `n = 1` and to `smallint`
otherwise; in particular `tinyint(1)` gives `boolean` and `tinyint(4)`
gives `smallint`. -/
theorem c5_tinyint_boolean_iff_width_one :
    (∀ n : Nat,
      map_mysql_to_pg ( "tinyint".data) ( "tinyint(".data ++ natDigits n ++ ')' :: []) =
        (if n = 1 then "boolean".data else "smallint".data)) ∧
      map_mysql_to_pg ( "tinyint".data) ( "tinyint(1)".data) = "boolean".data ∧
        map_mysql_to_pg ( "tinyint".data) ( "tinyint(4)".data) = "smallint".data := by
  refine ⟨?_, by decide, by decide⟩
  intro n
  have hct : pyLower ( "tinyint(".data ++ natDigits n ++ ')' :: []) =
      "tinyint(".data ++ natDigits n ++ ')' :: [] := by
    unfold pyLower
    rw [List.map_append, List.map_append]
    rw [show List.map pyLowerChar ( "tinyint(".data) = "tinyint(".data from by decide]
    rw [map_eq_self_of_fix _ (fun c hc => digit_lower_fix (natDigits_digits n c hc))]
    rw [show List.map pyLowerChar (')' :: []) = ')' :: [] from by decide]
  simp only [map_mysql_to_pg]
  rw [hct]
  rw [show pyLower ( "tinyint".data) = "tinyint".data from by decide]
  rw [if_neg (by decide), if_neg (by decide), if_neg (by decide), if_pos rfl]
  by_cases hn : n = 1
  · subst hn
    rw [if_pos rfl]
    rw [show natDigits 1 = '1' :: [] from by decide]
    decide
  · rw [if_neg hn]
    have hfalse : containsSub ( "tinyint(1)".data)
        ( "tinyint(".data ++ natDigits n ++ ')' :: []) = false := by
      cases hcs : containsSub ( "tinyint(1)".data)
          ( "tinyint(".data ++ natDigits n ++ ')' :: []) with
      | false => rfl
      | true =>
        exact absurd ((natDigits_eq_one_iff n).mp
          ((containsSub_tinyint1 (natDigits_ne_nil n) (natDigits_digits n)).mp hcs)) hn
    rw [hfalse]
    simp

/-! Database-effect model: the loader's side effects on the target are
traces of statements; `α` is the row type of the source cursor. -/

inductive PgStmt (α : Type) where
  | truncate (schema_norm table_norm : List Char)
  | insertRows (rows : List α)
  | commit
deriving DecidableEq

/-- Effect of one statement on the target table's contents (a commit is a
durability marker and does not change contents in this model). -/
def execStmt {α : Type} (rows : List α) : PgStmt α → List α
  | PgStmt.truncate _ _ => []
  | PgStmt.insertRows rs => rows ++ rs
  | PgStmt.commit => rows

def execStmts {α : Type} (stmts : List (PgStmt α)) (rows : List α) : List α :=
  stmts.foldl execStmt rows

/-- `maybe_truncate` from the source: on mode `"replace"` issue a
full-table TRUNCATE and commit, otherwise do nothing. -/
def maybe_truncate (α : Type) (schema_norm table_norm mode : List Char) :
    List (PgStmt α) :=
  if mode = "replace".data then
    [PgStmt.truncate schema_norm table_norm, PgStmt.commit]
  else []

/-- C8: `maybe_truncate` issues a TRUNCATE followed by a commit exactly
when the mode equals `"replace"`; for every other mode value it issues no
statement at all, and the target table's contents are left unchanged. -/
theorem c8_maybe_truncate_frame (α : Type) (schema_norm table_norm mode : List Char)
    (rows : List α) :
    maybe_truncate α schema_norm table_norm mode =
        (if mode = "replace".data then
          [PgStmt.truncate schema_norm table_norm, PgStmt.commit] else []) ∧
      execStmts (maybe_truncate α schema_norm table_norm mode) rows =
        (if mode = "replace".data then [] else rows) := by
  constructor
  · rfl
  · unfold maybe_truncate
    by_cases h : mode = "replace".data
    · rw [if_pos h, if_pos h]; rfl
    · rw [if_neg h, if_neg h]; rfl

/-- `os.getenv("LOAD_MODE", "append").strip().lower()` from `main`. -/
def load_mode_of : Option (List Char) → List Char
  | none => pyLower (pyStripBy isPySpace ( "append".data))
  | some v => pyLower (pyStripBy isPySpace v)

/-- C10: the LOAD_MODE value is stripped and lowercased before the
comparison with `"replace"`, so the run truncates the target iff
`v.strip().lower() = "replace"`; in particular `"REPLACE"` and
`" Replace "` both trigger replace mode. -/
theorem c10_load_mode_case_insensitive (α : Type)
    (v schema_norm table_norm : List Char) :
    ((PgStmt.truncate schema_norm table_norm ∈
        maybe_truncate α schema_norm table_norm (load_mode_of (some v))) ↔
      pyLower (pyStripBy isPySpace v) = "replace".data) ∧
      maybe_truncate α schema_norm table_norm (load_mode_of (some ( "REPLACE".data))) =
        [PgStmt.truncate schema_norm table_norm, PgStmt.commit] ∧
      maybe_truncate α schema_norm table_norm (load_mode_of (some ( " Replace ".data))) =
        [PgStmt.truncate schema_norm table_norm, PgStmt.commit] := by
  refine ⟨?_, ?_, ?_⟩
  · unfold maybe_truncate load_mode_of
    by_cases h : pyLower (pyStripBy isPySpace v) = "replace".data
    · rw [if_pos h]
      simp [h]
    · rw [if_neg h]
      simp [h]
  · rw [show load_mode_of (some ( "REPLACE".data)) = "replace".data from by decide]
    unfold maybe_truncate
    rw [if_pos rfl]
  · rw [show load_mode_of (some ( " Replace ".data)) = "replace".data from by decide]
    unfold maybe_truncate
    rw [if_pos rfl]

/-- The fetch/insert loop of `load_data`: each iteration fetches up to `B`
rows (`fetchmany(batch_size)`); a nonempty chunk is inserted with one
multi-row insert and committed, and its size is added to the running
total; an empty fetch breaks the loop.  `fuel` bounds the number of
iterations; `rows.length` suffices when `B > 0`. -/
def load_fuel {α : Type} (B : Nat) : Nat → List α → List (PgStmt α) × Nat
  | 0, _ => ([], 0)
  | _ + 1, [] => ([], 0)
  | fuel + 1, r :: rs =>
    (PgStmt.insertRows ((r :: rs).take B) :: PgStmt.commit ::
        (load_fuel B fuel ((r :: rs).drop B)).1,
      ((r :: rs).take B).length + (load_fuel B fuel ((r :: rs).drop B)).2)

/-- `load_data` from the source, for a source cursor yielding exactly
`rows`: the trace of statements issued and the returned row count. -/
def load_data {α : Type} (B : Nat) (rows : List α) : List (PgStmt α) × Nat :=
  load_fuel B rows.length rows

/-- Specification-side chunking of the cursor contents into batches. -/
def chunksGo {α : Type} (B : Nat) : Nat → List α → List (List α)
  | 0, _ => []
  | _ + 1, [] => []
  | fuel + 1, r :: rs => (r :: rs).take B :: chunksGo B fuel ((r :: rs).drop B)

def chunksOf {α : Type} (B : Nat) (rows : List α) : List (List α) :=
  chunksGo B rows.length rows

/-- Number of insert statements in a trace. -/
def countInserts {α : Type} (stmts : List (PgStmt α)) : Nat :=
  stmts.countP (fun st =>
    match st with
    | PgStmt.insertRows _ => true
    | _ => false)

theorem load_fuel_trace {α : Type} (B : Nat) :
    ∀ (fuel : Nat) (rows : List α),
      (load_fuel B fuel rows).1 =
        (chunksGo B fuel rows).flatMap
          (fun c => [PgStmt.insertRows c, PgStmt.commit]) := by
  intro fuel
  induction fuel with
  | zero => intro rows; rfl
  | succ fuel ih =>
    intro rows
    cases rows with
    | nil => rfl
    | cons r rs =>
      simp only [load_fuel, chunksGo, List.flatMap_cons]
      rw [ih]
      rfl

theorem load_fuel_total {α : Type} (B : Nat) (hB : 0 < B) :
    ∀ (fuel : Nat) (rows : List α), rows.length ≤ fuel →
      (load_fuel B fuel rows).2 = rows.length := by
  intro fuel
  induction fuel with
  | zero =>
    intro rows h
    have hnil : rows = [] := List.eq_nil_of_length_eq_zero (by omega)
    subst hnil; rfl
  | succ fuel ih =>
    intro rows h
    cases rows with
    | nil => rfl
    | cons r rs =>
      simp only [load_fuel]
      rw [ih _ (by rw [List.length_drop]; omega)]
      rw [List.length_take, List.length_drop]
      simp only [List.length_cons] at h ⊢
      omega

theorem chunksGo_length {α : Type} (B : Nat) (hB : 0 < B) :
    ∀ (fuel : Nat) (rows : List α), rows.length ≤ fuel →
      (chunksGo B fuel rows).length = (rows.length + B - 1) / B := by
  intro fuel
  induction fuel with
  | zero =>
    intro rows h
    have hnil : rows = [] := List.eq_nil_of_length_eq_zero (by omega)
    subst hnil
    show 0 = (0 + B - 1) / B
    symm
    apply Nat.div_eq_of_lt
    omega
  | succ fuel ih =>
    intro rows h
    cases rows with
    | nil =>
      show 0 = (0 + B - 1) / B
      symm
      apply Nat.div_eq_of_lt
      omega
    | cons r rs =>
      simp only [chunksGo, List.length_cons]
      rw [ih _ (by rw [List.length_drop]; omega), List.length_drop]
      simp only [List.length_cons]
      have e1 : (rs.length + 1 - B + B - 1) / B = rs.length / B := by
        rcases Nat.le_total B (rs.length + 1) with hc | hc
        · congr 1
          omega
        · rw [Nat.div_eq_of_lt (by omega), Nat.div_eq_of_lt (by omega)]
      have e2 : (rs.length + 1 + B - 1) / B = rs.length / B + 1 := by
        rw [show rs.length + 1 + B - 1 = rs.length + B from by omega,
          Nat.add_div_right _ hB]
      rw [e1, e2]

theorem chunksGo_flatten {α : Type} (B : Nat) (hB : 0 < B) :
    ∀ (fuel : Nat) (rows : List α), rows.length ≤ fuel →
      (chunksGo B fuel rows).flatten = rows := by
  intro fuel
  induction fuel with
  | zero =>
    intro rows h
    have hnil : rows = [] := List.eq_nil_of_length_eq_zero (by omega)
    subst hnil; rfl
  | succ fuel ih =>
    intro rows h
    cases rows with
    | nil => rfl
    | cons r rs =>
      simp only [chunksGo, List.flatten_cons]
      rw [ih _ (by rw [List.length_drop]; omega)]
      exact List.take_append_drop B (r :: rs)

theorem countInserts_flatMap {α : Type} :
    ∀ cl : List (List α),
      countInserts (cl.flatMap (fun c => [PgStmt.insertRows c, PgStmt.commit])) =
        cl.length := by
  intro cl
  induction cl with
  | nil => rfl
  | cons c cs ih =>
    simp only [List.flatMap_cons, countInserts, List.countP_append] at ih ⊢
    rw [ih]
    simp only [List.countP_cons, List.countP_nil, List.length_cons,
      Bool.false_eq_true, if_false, if_true]
    omega

/-- C3: for a source cursor yielding exactly `R` rows and a batch size
`B > 0`, the trace of `load_data` is exactly one multi-row insert per
chunk, each followed immediately by a commit; the number of inserts is
`ceil(R/B) = (R + B - 1) / B`; the inserted chunks concatenate back to the
source rows; and the returned count equals `R`. -/
theorem c3_load_data_batches (α : Type) (rows : List α) (B : Nat) (hB : 0 < B) :
    (load_data B rows).2 = rows.length ∧
      (load_data B rows).1 =
        (chunksOf B rows).flatMap (fun c => [PgStmt.insertRows c, PgStmt.commit]) ∧
      countInserts (load_data B rows).1 = (rows.length + B - 1) / B ∧
      (chunksOf B rows).flatten = rows := by
  refine ⟨load_fuel_total B hB rows.length rows (Nat.le_refl _),
    load_fuel_trace B rows.length rows, ?_,
    chunksGo_flatten B hB rows.length rows (Nat.le_refl _)⟩
  show countInserts (load_fuel B rows.length rows).1 = _
  rw [load_fuel_trace B rows.length rows]
  rw [countInserts_flatMap]
  exact chunksGo_length B hB rows.length rows (Nat.le_refl _)

/-- C3 witness: five rows with batch size 2 produce three insert/commit
pairs and a returned count of 5. -/
theorem c3_load_data_batches_witness :
    0 < 2 ∧
      ((load_data 2 ([0, 1, 2, 3, 4] : List Nat)).2 = ([0, 1, 2, 3, 4] : List Nat).length ∧
        (load_data 2 ([0, 1, 2, 3, 4] : List Nat)).1 =
          (chunksOf 2 ([0, 1, 2, 3, 4] : List Nat)).flatMap
            (fun c => [PgStmt.insertRows c, PgStmt.commit]) ∧
        countInserts (load_data 2 ([0, 1, 2, 3, 4] : List Nat)).1 =
          (([0, 1, 2, 3, 4] : List Nat).length + 2 - 1) / 2 ∧
        (chunksOf 2 ([0, 1, 2, 3, 4] : List Nat)).flatten = ([0, 1, 2, 3, 4] : List Nat)) :=
  ⟨by decide, c3_load_data_batches Nat ([0, 1, 2, 3, 4] : List Nat) 2 (by decide)⟩

/-! Embedding of the identifier/primary-key logic of
`ensure_schema_and_table`. -/

/-- One row of `information_schema.COLUMNS` as used by the loader. -/
structure MysqlCol where
  column_name : List Char
  column_type : List Char
  data_type : List Char
  is_nullable : List Char
  column_default : Option (List Char)

/-- Lookup in `dict(zip(ks, vs))`: `zip` truncates to the shorter list and
later duplicate keys override earlier ones (so the lookup prefers the
rightmost binding). -/
def lookupLast (ks vs : List (List Char)) (x : List Char) : Option (List Char) :=
  match ks, vs with
  | k :: ks', v :: vs' =>
    (match lookupLast ks' vs' x with
     | some r => some r
     | none => if x = k then some v else none)
  | _, _ => none

/-- `pk_norm` of `ensure_schema_and_table`:
`[name_map[x] for x in mysql_pk_cols if x in name_map]`, guarded by
`if mysql_pk_cols:`. -/
def pk_norm_of (mysql_col_names pg_col_names mysql_pk_cols : List (List Char)) :
    List (List Char) :=
  if mysql_pk_cols.isEmpty then []
  else mysql_pk_cols.filterMap (fun x => lookupLast mysql_col_names pg_col_names x)

/-- The parts of `ensure_schema_and_table`'s outcome relevant to naming and
keys: normalized schema/table names, the normalized deduplicated column
list, the normalized primary key, and whether the generated DDL carries a
PRIMARY KEY clause (`if pk_norm:`). -/
structure EnsureResult where
  schema_norm : List Char
  table_norm : List Char
  pg_col_names : List (List Char)
  mysql_col_names : List (List Char)
  pk_norm : List (List Char)
  has_pk_clause : Bool

/-- `ensure_schema_and_table` from the source (identifier and key logic;
the DDL text itself is psycopg2 SQL composition over these pieces):
`mysql_col_names` is the introspected column-name list,
`pg_col_names = dedupe_idents([normalize_ident(x) for x in mysql_col_names])`,
`pk_norm` filters/renames the primary key through `dict(zip(...))`, and the
PRIMARY KEY clause is emitted iff `pk_norm` is nonempty. -/
def ensure_schema_and_table (schema table : List Char) (mysql_cols : List MysqlCol)
    (mysql_pk_cols : List (List Char)) : EnsureResult :=
  ⟨normalize_ident schema, normalize_ident table,
    dedupe_idents ((mysql_cols.map (fun c => c.column_name)).map normalize_ident),
    mysql_cols.map (fun c => c.column_name),
    pk_norm_of (mysql_cols.map (fun c => c.column_name))
      (dedupe_idents ((mysql_cols.map (fun c => c.column_name)).map normalize_ident))
      mysql_pk_cols,
    !(pk_norm_of (mysql_cols.map (fun c => c.column_name))
      (dedupe_idents ((mysql_cols.map (fun c => c.column_name)).map normalize_ident))
      mysql_pk_cols).isEmpty⟩

theorem dedupe_go_length :
    ∀ (xs : List (List Char)) (seen : List Char → Nat),
      (dedupe_go seen xs).length = xs.length := by
  intro xs
  induction xs with
  | nil => intro seen; rfl
  | cons x xs ih =>
    intro seen
    simp only [dedupe_go]
    by_cases h : seen x = 0
    · rw [if_pos h]; simp [ih]
    · rw [if_neg h]; simp [ih]

theorem lookupLast_eq_none_iff :
    ∀ (ks vs : List (List Char)) (x : List Char), ks.length = vs.length →
      (lookupLast ks vs x = none ↔ x ∉ ks) := by
  intro ks
  induction ks with
  | nil =>
    intro vs x h
    simp [lookupLast]
  | cons k ks ih =>
    intro vs x h
    cases vs with
    | nil => simp at h
    | cons v vs' =>
      simp only [lookupLast]
      have hih := ih vs' x (by simpa using h)
      cases hl : lookupLast ks vs' x with
      | some r =>
        constructor
        · intro hc; simp at hc
        · intro hc
          exfalso
          have hmem : x ∈ ks := by
            by_contra hx
            have := hih.mpr hx
            rw [hl] at this
            simp at this
          exact hc (List.mem_cons_of_mem k hmem)
      | none =>
        have hnk : x ∉ ks := hih.mp hl
        by_cases hxk : x = k
        · rw [if_pos hxk]
          simp [hxk]
        · rw [if_neg hxk]
          simp [List.mem_cons, hxk, hnk]

theorem pk_norm_of_eq_filterMap
    (mysql_col_names pg_col_names mysql_pk_cols : List (List Char)) :
    pk_norm_of mysql_col_names pg_col_names mysql_pk_cols =
      mysql_pk_cols.filterMap
        (fun x => lookupLast mysql_col_names pg_col_names x) := by
  unfold pk_norm_of
  cases mysql_pk_cols with
  | nil => rfl
  | cons p ps => rfl

theorem filterMap_filter_known {f : List Char → Option (List Char)}
    {known : List Char → Bool}
    (hf : ∀ x, known x = false → f x = none) :
    ∀ l : List (List Char), l.filterMap f = (l.filter known).filterMap f := by
  intro l
  induction l with
  | nil => rfl
  | cons x xs ih =>
    cases hk : known x with
    | true =>
      rw [List.filter_cons, if_pos hk, List.filterMap_cons, List.filterMap_cons, ih]
    | false =>
      rw [List.filter_cons, if_neg (by simp [hk]), List.filterMap_cons, hf x hk, ih]

/-- C9: primary-key column names absent from the introspected source
columns are silently dropped — the whole result of
`ensure_schema_and_table` is unchanged when they are filtered out of the
primary key beforehand (no error is raised; the embedding is total) — and
the generated DDL carries a PRIMARY KEY clause exactly when at least one
primary-key column appears among the source column names. -/
theorem c9_pk_unknown_columns_dropped (schema table : List Char)
    (mysql_cols : List MysqlCol) (mysql_pk_cols : List (List Char)) :
    ensure_schema_and_table schema table mysql_cols mysql_pk_cols =
        ensure_schema_and_table schema table mysql_cols
          (mysql_pk_cols.filter
            (fun x => (mysql_cols.map (fun c => c.column_name)).contains x)) ∧
      ((ensure_schema_and_table schema table mysql_cols
            mysql_pk_cols).has_pk_clause = true ↔
        ∃ x ∈ mysql_pk_cols, x ∈ mysql_cols.map (fun c => c.column_name)) := by
  set names := mysql_cols.map (fun c => c.column_name) with hnames
  set pgs := dedupe_idents (names.map normalize_ident) with hpgs
  have hlen : names.length = pgs.length := by
    rw [hpgs]
    unfold dedupe_idents
    rw [dedupe_go_length]
    simp
  have hnone : ∀ x, (names.contains x) = false → lookupLast names pgs x = none := by
    intro x hx
    rw [lookupLast_eq_none_iff _ _ _ hlen]
    intro hmem
    have hc : names.contains x = true := List.elem_iff.mpr hmem
    rw [hc] at hx
    simp at hx
  have hpkeq : pk_norm_of names pgs mysql_pk_cols =
      pk_norm_of names pgs (mysql_pk_cols.filter (fun x => names.contains x)) := by
    rw [pk_norm_of_eq_filterMap, pk_norm_of_eq_filterMap]
    exact filterMap_filter_known hnone mysql_pk_cols
  constructor
  · unfold ensure_schema_and_table
    rw [← hnames, ← hpgs, hpkeq]
  · show (!(pk_norm_of names pgs mysql_pk_cols).isEmpty) = true ↔
      ∃ x ∈ mysql_pk_cols, x ∈ names
    rw [pk_norm_of_eq_filterMap]
    constructor
    · intro h
      by_contra hex
      push_neg at hex
      have hnil : mysql_pk_cols.filterMap (fun x => lookupLast names pgs x) = [] :=
        List.filterMap_eq_nil_iff.mpr
          (fun x hx => (lookupLast_eq_none_iff names pgs x hlen).mpr (hex x hx))
      rw [hnil] at h
      simp at h
    · intro hex
      obtain ⟨x, hx, hmem⟩ := hex
      have hfx : lookupLast names pgs x ≠ none :=
        fun hn => ((lookupLast_eq_none_iff names pgs x hlen).mp hn) hmem
      cases hfy : lookupLast names pgs x with
      | none => exact absurd hfy hfx
      | some y =>
        have hy : y ∈ mysql_pk_cols.filterMap (fun x => lookupLast names pgs x) :=
          List.mem_filterMap.mpr ⟨x, hx, hfy⟩
        cases hfm : mysql_pk_cols.filterMap (fun x => lookupLast names pgs x) with
        | nil => rw [hfm] at hy; cases hy
        | cons a as => rfl

end PlMysqlToSupa
